import Mathlib

/-!
# Verification model of `mingw_objs2/main.cgo2.c`

The file is the cgo-generated C side of a Go program: the native function
`getint`, six build-time size assertions, and the call shim
`_cgo_5b040d13e328_Cfunc_getint`.

Conventions of the embedding
* `W` is the bit width of `size_t`, `ptrdiff_t` and of a data pointer on the
  target (32 on windows/386, 64 on windows/amd64).  Unsigned arithmetic is
  arithmetic on `Int` reduced modulo `2 ^ W`.
* The count of a size assertion mixes a `sizeof` with `int` constants: it is
  computed in `size_t` unless `int` is the wider type, and then in `int`,
  where a result out of range is no constant expression.
* Memory is byte addressed and little endian, as on every target of mingw; a
  store to an unmapped byte is a fault (`none`).  Memory is the data memory
  the caller of the shim can observe; the state of the C library's output
  stream is kept apart from it, as the characters written so far.
* `printf` writes its text to standard output and its return value is
  ignored, as in line 5.
* `_cgo_topofstack` is declared `extern` and defined elsewhere, so it is a
  parameter: `tos k` is the value returned by the `k`-th call of it.
* `int` has 4 bytes: lines 19-25 keep the file from compiling otherwise.
-/

namespace Cgo

/-! ## Build-time part: lines 11-25 -/

/-- Value of an integer after conversion to the `W`-bit unsigned type `size_t`. -/
def wrapU (W : Nat) (z : Int) : Int := z % (2 : Int) ^ W

/-- Two's complement reading of a `W`-bit pattern `v` (with `0 ≤ v < 2 ^ W`). -/
def asSigned (W : Nat) (v : Int) : Int :=
  if v < (2 : Int) ^ (W - 1) then v else v - (2 : Int) ^ W

/-- Array count `(x-y)*(x-y)*-2+1` of the typedef that
`__cgo_compile_assert_eq(x, y, name)` expands to (line 14), on a target where
`size_t` has at least the rank of `int`: `x` is a `sizeof`, of type `size_t`,
so `y` and `-2` are converted to `size_t` and every operation is taken modulo
`2 ^ W`.  The result is the `size_t` value of the count. -/
def __cgo_compile_assert_eq (W : Nat) (x y : Nat) : Int :=
  let xs := wrapU W (x : Int)
  let ys := wrapU W (y : Int)
  let d := wrapU W (xs - ys)
  let sq := wrapU W (d * d)
  let prod := wrapU W (sq * wrapU W (-2))
  wrapU W (prod + 1)

/-- The compiler accepts `typedef char name[c]` for a constant `size_t` count
`c` when `c`, read as a signed `W`-bit number, is not negative (gcc takes a
zero count as an extension and rejects a count of half the address space or
more). -/
def arrayCountValid (W : Nat) (c : Int) : Bool := decide (0 ≤ asSigned W c)

/-- The integer `z` is a value of the signed `I`-bit type `int`. -/
def inInt (I : Nat) (z : Int) : Bool :=
  decide (-(2 : Int) ^ (I - 1) ≤ z ∧ z < (2 : Int) ^ (I - 1))

/-- Array count `(x-y)*(x-y)*-2+1` of line 14 on a target where `int` is wider
than `size_t`: the `sizeof` is promoted to `int` and the count is computed in
the signed `I`-bit type `int`.  An operation whose result is not a value of
`int` makes the expression no constant expression (`none`). -/
def __cgo_compile_assert_eq_int (I : Nat) (x y : Int) : Option Int :=
  let d := x - y
  let sq := d * d
  let prod := sq * (-2)
  let c := prod + 1
  if inInt I x && inInt I y && inInt I d && inInt I sq && inInt I prod && inInt I c then
    some c
  else none

/-- The compiler accepts `typedef char name[c]` for a constant `int` count `c`
when `c` is not negative and less than half the address space. -/
def intCountValid (W : Nat) (c : Int) : Bool :=
  decide (0 ≤ c ∧ c < (2 : Int) ^ (W - 1))

/-- Whether `__cgo_size_assert(t, n)` (line 17) compiles when `sizeof(t)` is
`sz`, `size_t` has `W` bits and `int` has `I` bits: the typedef of
`__cgo_compile_assert_eq(sizeof(t), n, _)` is a valid type.  By the usual
arithmetic conversions the count is computed in `int` when `int` is wider than
`size_t`, and in `size_t` otherwise. -/
def __cgo_size_assert (W I : Nat) (sz n : Nat) : Bool :=
  if W < I then
    match __cgo_compile_assert_eq_int I (wrapU W (sz : Int)) (n : Int) with
    | some c => intCountValid W c
    | none => false
  else arrayCountValid W (__cgo_compile_assert_eq W sz n)

/-- Byte sizes a platform gives the primitive types the file checks, with the
width in bits of its `size_t`. -/
structure Platform where
  size_t_bits : Nat
  sizeof_char : Nat
  sizeof_short : Nat
  sizeof_int : Nat
  sizeof_long_long : Nat
  sizeof_float : Nat
  sizeof_double : Nat
deriving DecidableEq, Repr

/-- Width in bits of `int` on a platform, bytes having 8 bits. -/
def intBits (P : Platform) : Nat := 8 * P.sizeof_int

/-- The six assertions of lines 19-25, in the order of the file. -/
def sizeAssertsPass (P : Platform) : Bool :=
  __cgo_size_assert P.size_t_bits (intBits P) P.sizeof_char 1 &&
  __cgo_size_assert P.size_t_bits (intBits P) P.sizeof_short 2 &&
  __cgo_size_assert P.size_t_bits (intBits P) P.sizeof_int 4 &&
  __cgo_size_assert P.size_t_bits (intBits P) P.sizeof_long_long 8 &&
  __cgo_size_assert P.size_t_bits (intBits P) P.sizeof_float 4 &&
  __cgo_size_assert P.size_t_bits (intBits P) P.sizeof_double 8

/-- The difference of the two sizes is small enough for `2 * (x - y) ^ 2` not
to reach the sign bit of a `W`-bit number. -/
def smallDiff (W : Nat) (x y : Nat) : Prop :=
  ((x : Int) - y) ^ 2 ≤ (2 : Int) ^ (W - 2)

instance (W x y : Nat) : Decidable (smallDiff W x y) := by
  unfold smallDiff; infer_instance

/-- The sizes `(1, 2, 4, 8, 4, 8)` the file expects. -/
def expectedSizes (P : Platform) : Prop :=
  P.sizeof_char = 1 ∧ P.sizeof_short = 2 ∧ P.sizeof_int = 4 ∧
  P.sizeof_long_long = 8 ∧ P.sizeof_float = 4 ∧ P.sizeof_double = 8

instance (P : Platform) : Decidable (expectedSizes P) := by
  unfold expectedSizes; infer_instance

/-! ## Run-time part: lines 3-7 and 27-42 -/

/-- The primitive types whose sizes lines 19-25 check. -/
inductive CType where
  | char | short | int | long_long | float | double
deriving DecidableEq, Repr

/-- Size in bytes of a primitive type on a target the file compiles for: the
sizes lines 19-25 assert. -/
def sizeofT : CType → Nat
  | .char => 1
  | .short => 2
  | .int => 4
  | .long_long => 8
  | .float => 4
  | .double => 8

/-- Offsets of the fields of a struct declared `__packed__`: every field
starts where the one before it ends, the first at `off`. -/
def packedOffsets : List CType → Nat → List Nat
  | [], _ => []
  | t :: ts, off => off :: packedOffsets ts (off + sizeofT t)

/-- Size of a struct declared `__packed__`: the sizes of its fields, no padding. -/
def packedSize (fields : List CType) : Nat := (fields.map sizeofT).sum

/-- Fields of the argument block `struct { int r; }` of lines 35-37. -/
def argFields : List CType := [CType.int]

/-- Offset of the field `r` in the argument block. -/
def offset_r : Nat := (packedOffsets argFields 0).headD 0

/-- Byte-addressed memory: which addresses are mapped, and the byte each holds. -/
@[ext]
structure Mem where
  mapped : Nat → Bool
  bytes : Nat → Nat

/-- What an execution does, in the order it does it. -/
inductive Event where
  | topofstack (ret : Nat)
  | getint_enter
  | printf (text : List Char)
  | getint_return (v : Int)
  | store_r (addr : Nat) (v : Int)
deriving DecidableEq, Repr

/-- State of the process: memory, the characters written to standard output so
far, how many times `_cgo_topofstack` has been called, and the events so far. -/
@[ext]
structure World where
  mem : Mem
  stdout : List Char
  tosCalls : Nat
  trace : List Event

/-- The text `"hello\n"` of line 5. -/
def hello : List Char := ['h', 'e', 'l', 'l', 'o', '\n']

/-- The call `printf(text)` with a format that has no conversion: `text` is
appended to standard output. -/
def printf (text : List Char) (w : World) : World :=
  { w with stdout := w.stdout ++ text, trace := w.trace ++ [Event.printf text] }

/-- Lines 4-7: `int getint() { printf("hello\n"); return 3; }`. -/
def getint (w : World) : Int × World :=
  let w0 := { w with trace := w.trace ++ [Event.getint_enter] }
  let w1 := printf hello w0
  (3, { w1 with trace := w1.trace ++ [Event.getint_return 3] })

/-- Line 27: `extern char* _cgo_topofstack(void)`.  Its body is not in the
file; `tos k` is what its `k`-th call returns. -/
def _cgo_topofstack (tos : Nat → Nat) (w : World) : Nat × World :=
  let ret := tos w.tosCalls
  (ret, { w with tosCalls := w.tosCalls + 1, trace := w.trace ++ [Event.topofstack ret] })

/-- Difference `q - p` of two `char*`, a `ptrdiff_t`. -/
def ptrDiff (W : Nat) (q p : Nat) : Int := asSigned W (wrapU W ((q : Int) - p))

/-- Sum `p + d` of a `char*` and a `ptrdiff_t`, a `W`-bit address. -/
def ptrAdd (W : Nat) (p : Nat) (d : Int) : Nat := (wrapU W ((p : Int) + d)).toNat

/-- The four bytes of an `int` at address `a` are all mapped. -/
def intMapped (m : Mem) (a : Nat) : Bool :=
  m.mapped a && m.mapped (a + 1) && m.mapped (a + 2) && m.mapped (a + 3)

/-- Byte `i` (little endian) of the 32-bit two's complement pattern of `v`. -/
def byteOf (v : Int) (i : Nat) : Nat := (v % 2 ^ 32 / 256 ^ i % 256).toNat

/-- Memory after the four bytes of the `int` `v` are written at address `a`. -/
def writeInt (m : Mem) (a : Nat) (v : Int) : Mem :=
  { m with bytes := fun x =>
      if a ≤ x ∧ x < a + sizeofT CType.int then byteOf v (x - a) else m.bytes x }

/-- Store of an `int` at address `a`; a fault when a byte of it is unmapped. -/
def storeInt (m : Mem) (a : Nat) (v : Int) : Option Mem :=
  if intMapped m a then some (writeInt m a v) else none

/-- Load of an `int` from address `a`; a fault when a byte of it is unmapped. -/
def loadInt (m : Mem) (a : Nat) : Option Int :=
  if intMapped m a then
    some (asSigned 32 ((m.bytes a % 256 : Nat) + 256 * (m.bytes (a + 1) % 256 : Nat)
      + 65536 * (m.bytes (a + 2) % 256 : Nat) + 16777216 * (m.bytes (a + 3) % 256 : Nat)))
  else none

/-- The value of `a->r` for an argument block at address `a`. -/
def read_r (m : Mem) (a : Nat) : Option Int := loadInt m (a + offset_r)

/-- Line 41: the assignment `a->r = r`. -/
def assign_r (a : Nat) (r : Int) (w : World) : Option World :=
  match storeInt w.mem (a + offset_r) r with
  | none => none
  | some m => some { w with mem := m, trace := w.trace ++ [Event.store_r (a + offset_r) r] }

/-- Lines 32-42: the call shim, invoked with the argument `v`. -/
def _cgo_5b040d13e328_Cfunc_getint (W : Nat) (tos : Nat → Nat) (v : Nat) (w : World) :
    Option World :=
  let a := v
  let (stktop, w1) := _cgo_topofstack tos w
  let (r, w2) := getint w1
  let (top, w3) := _cgo_topofstack tos w2
  let a := ptrAdd W a (ptrDiff W top stktop)
  assign_r a r w3

/-- The shim invoked `n` times in a row on the same argument `v`; a fault ends
the run. -/
def invoke (W : Nat) (tos : Nat → Nat) (v : Nat) : Nat → World → Option World
  | 0, w => some w
  | n + 1, w =>
    match _cgo_5b040d13e328_Cfunc_getint W tos v w with
    | none => none
    | some w1 => invoke W tos v n w1

/-- The shim of the spec's design note for a target whose stacks do not move:
the relocation offset is dropped and the result of `getint` is written to the
address given. -/
def shimDirect (v : Nat) (w : World) : Option World :=
  let (r, w1) := getint w
  assign_r v r w1

/-- Address the shim stores to when invoked with `v` in a state where
`_cgo_topofstack` has been called `c` times. -/
def target (W : Nat) (tos : Nat → Nat) (v : Nat) (c : Nat) : Nat :=
  ptrAdd W v (ptrDiff W (tos (c + 1)) (tos c)) + offset_r

/-- State of the shim just before line 41, when it is entered in state `w`. -/
def beforeStore (tos : Nat → Nat) (w : World) : World :=
  { mem := w.mem
    stdout := w.stdout ++ hello
    tosCalls := w.tosCalls + 2
    trace := w.trace ++ [Event.topofstack (tos w.tosCalls), Event.getint_enter,
      Event.printf hello, Event.getint_return 3, Event.topofstack (tos (w.tosCalls + 1))] }

/-- What a caller observes of a run: the memory and standard output. -/
def observe (w : World) : Mem × List Char := (w.mem, w.stdout)

/-- State the shim ends in, entered in state `w` with the argument `v`, when
its store does not fault. -/
def afterShim (W : Nat) (tos : Nat → Nat) (v : Nat) (w : World) : World :=
  { mem := writeInt w.mem (target W tos v w.tosCalls) 3
    stdout := w.stdout ++ hello
    tosCalls := w.tosCalls + 2
    trace := w.trace ++ [Event.topofstack (tos w.tosCalls), Event.getint_enter,
      Event.printf hello, Event.getint_return 3, Event.topofstack (tos (w.tosCalls + 1)),
      Event.store_r (target W tos v w.tosCalls) 3] }

/-- The address `p + (after - before)` in a `W`-bit address space. -/
def relocated (W : Nat) (p before after : Nat) : Nat :=
  (((p : Int) + ((after : Int) - before)) % 2 ^ W).toNat

/-- The argument block at address `a` is mapped: the bytes of its field `r` are. -/
def blockValid (m : Mem) (a : Nat) : Bool := intMapped m (a + offset_r)

/-- A memory whose mapped bytes are the four at addresses 100 to 103, all zero. -/
def exampleMem : Mem :=
  { mapped := fun a => decide (100 ≤ a ∧ a < 104), bytes := fun _ => 0 }

/-- The memory `exampleMem` with 7 in each of its four mapped bytes. -/
def exampleMem7 : Mem :=
  { mapped := fun a => decide (100 ≤ a ∧ a < 104)
    bytes := fun a => if 100 ≤ a ∧ a < 104 then 7 else 0 }

/-- A state with the memory `exampleMem`, before any output and any call. -/
def exampleWorld : World := { mem := exampleMem, stdout := [], tosCalls := 0, trace := [] }

/-- A stack that stays where it is: every call of `_cgo_topofstack` returns 5000. -/
def fixedStack : Nat → Nat := fun _ => 5000

/-- A stack that moves down by 16 bytes during the first call of `getint`. -/
def movedStack : Nat → Nat := fun k => if k = 0 then 5000 else 4984

/-! ### Lemmas on the build-time part -/

theorem count_modEq (W : Nat) (x y : Nat) :
    __cgo_compile_assert_eq W x y = (1 - 2 * ((x : Int) - y) ^ 2) % (2 : Int) ^ W := by
  have key : (__cgo_compile_assert_eq W x y) % (2 : Int) ^ W
      = (1 - 2 * ((x : Int) - y) ^ 2) % (2 : Int) ^ W := by
    unfold __cgo_compile_assert_eq wrapU
    simp only []
    have h1 : ((x : Int) % 2 ^ W - (y : Int) % 2 ^ W) % 2 ^ W ≡ (x : Int) - y [ZMOD 2 ^ W] :=
      (Int.mod_modEq _ _).trans ((Int.mod_modEq _ _).sub (Int.mod_modEq _ _))
    have h2 := (Int.mod_modEq _ ((2:Int)^W)).trans (h1.mul h1)
    have h3 := (Int.mod_modEq _ ((2:Int)^W)).trans (h2.mul (Int.mod_modEq (-2) ((2:Int)^W)))
    have h4 := (Int.mod_modEq _ ((2:Int)^W)).trans (h3.add (Int.ModEq.refl 1))
    have h5 : ((x : Int) - y) * ((x : Int) - y) * (-2) + 1 = 1 - 2 * ((x : Int) - y) ^ 2 := by ring
    rw [h5] at h4
    exact h4
  rw [← key]
  unfold __cgo_compile_assert_eq wrapU
  simp only [Int.emod_emod_of_dvd _ (dvd_refl _)]

theorem two_pow_split (W : Nat) (hW : 2 ≤ W) :
    (2 : Int) ^ W = 4 * 2 ^ (W - 2) ∧ (2 : Int) ^ (W - 1) = 2 * 2 ^ (W - 2) := by
  obtain ⟨k, rfl⟩ : ∃ k, W = k + 2 := ⟨W - 2, by omega⟩
  constructor
  · simp [pow_succ]; ring
  · simp [pow_succ]; ring

theorem count_of_eq (W : Nat) (hW : 2 ≤ W) (x : Nat) :
    __cgo_compile_assert_eq W x x = 1 := by
  rw [count_modEq]
  obtain ⟨h4, _⟩ := two_pow_split W hW
  have hp : (0 : Int) < 2 ^ (W - 2) := by positivity
  simp only [sub_self, ne_eq, OfNat.ofNat_ne_zero, not_false_eq_true, zero_pow, mul_zero, sub_zero]
  exact Int.emod_eq_of_lt (by norm_num) (by omega)

theorem count_of_ne (W : Nat) (hW : 2 ≤ W) (x y : Nat) (hne : x ≠ y)
    (hs : smallDiff W x y) :
    __cgo_compile_assert_eq W x y = 1 - 2 * ((x : Int) - y) ^ 2 + 2 ^ W := by
  rw [count_modEq]
  obtain ⟨h4, _⟩ := two_pow_split W hW
  unfold smallDiff at hs
  have hd : (1 : Int) ≤ ((x : Int) - y) ^ 2 := by
    have : (x : Int) - y ≠ 0 := by omega
    have := sq_pos_of_ne_zero this
    omega
  rw [← Int.add_mul_emod_self_left (1 - 2 * ((x : Int) - y) ^ 2) ((2 : Int) ^ W) 1, mul_one]
  exact Int.emod_eq_of_lt (by omega) (by omega)

theorem asSigned_count_eq (W : Nat) (hW : 2 ≤ W) (x : Nat) :
    asSigned W (__cgo_compile_assert_eq W x x) = 1 := by
  rw [count_of_eq W hW]
  obtain ⟨_, h2⟩ := two_pow_split W hW
  have hp : (0 : Int) < 2 ^ (W - 2) := by positivity
  unfold asSigned
  rw [if_pos (by omega)]

theorem asSigned_count_ne (W : Nat) (hW : 2 ≤ W) (x y : Nat) (hne : x ≠ y)
    (hs : smallDiff W x y) :
    asSigned W (__cgo_compile_assert_eq W x y) = 1 - 2 * ((x : Int) - y) ^ 2 ∧
      asSigned W (__cgo_compile_assert_eq W x y) < 0 := by
  rw [count_of_ne W hW x y hne hs]
  obtain ⟨h4, h2⟩ := two_pow_split W hW
  have hd : (1 : Int) ≤ ((x : Int) - y) ^ 2 := by
    have : (x : Int) - y ≠ 0 := by omega
    have := sq_pos_of_ne_zero this
    omega
  unfold smallDiff at hs
  unfold asSigned
  rw [if_neg (by omega)]
  constructor <;> omega

theorem compile_assert_eq_small (W : Nat) (hW : 2 ≤ W) (x y : Nat) :
    (x = y → asSigned W (__cgo_compile_assert_eq W x y) = 1 ∧
      arrayCountValid W (__cgo_compile_assert_eq W x y) = true) ∧
    (x ≠ y → smallDiff W x y →
      asSigned W (__cgo_compile_assert_eq W x y) = 1 - 2 * ((x : Int) - y) ^ 2 ∧
      asSigned W (__cgo_compile_assert_eq W x y) < 0 ∧
      arrayCountValid W (__cgo_compile_assert_eq W x y) = false) := by
  constructor
  · rintro rfl
    simp [arrayCountValid, asSigned_count_eq W hW]
  · intro hne hs
    obtain ⟨h1, h2⟩ := asSigned_count_ne W hW x y hne hs
    refine ⟨h1, h2, ?_⟩
    unfold arrayCountValid
    simp only [decide_eq_false_iff_not, not_le]
    exact h2

theorem compile_assert_eq_int_some (I : Nat) (x y c : Int)
    (h : __cgo_compile_assert_eq_int I x y = some c) :
    c = (x - y) * (x - y) * (-2) + 1 := by
  unfold __cgo_compile_assert_eq_int at h
  simp only [] at h
  split at h
  · exact (Option.some.inj h).symm
  · exact Option.noConfusion h

theorem size_assert_int_ne (W I : Nat) (sz n : Nat) (hWI : W < I) (hsz : sz < 2 ^ W)
    (hne : sz ≠ n) : __cgo_size_assert W I sz n = false := by
  unfold __cgo_size_assert
  rw [if_pos hWI]
  have hx : wrapU W (sz : Int) = sz := by
    unfold wrapU
    exact Int.emod_eq_of_lt (by omega) (by exact_mod_cast hsz)
  rw [hx]
  cases h : __cgo_compile_assert_eq_int I (sz : Int) (n : Int) with
  | none => rfl
  | some c =>
    have hc := compile_assert_eq_int_some I _ _ c h
    have hd : (sz : Int) - n ≠ 0 := by omega
    have hpos : 0 < ((sz : Int) - n) * ((sz : Int) - n) := mul_self_pos.mpr hd
    simp only [intCountValid, decide_eq_false_iff_not, not_and, not_lt]
    intro h0
    omega

theorem add_four_le_pow (s : Nat) (hs : 1 ≤ s) : s + 4 ≤ 8 ^ s := by
  induction s, hs using Nat.le_induction with
  | base => norm_num
  | succ n _ ih =>
    rw [pow_succ]
    omega

theorem smallDiff_int (W s : Nat) (hs : 1 ≤ s) (hW : 8 * s ≤ W) : smallDiff W s 4 := by
  unfold smallDiff
  have h1 : ((s : Int) - (4 : Nat)) ^ 2 ≤ ((s : Int) + 4) ^ 2 := by
    have : (0 : Int) ≤ s := Int.natCast_nonneg s
    push_cast
    nlinarith
  have h2 : ((s : Int) + 4) ^ 2 ≤ ((8 : Int) ^ s) ^ 2 := by
    have h := add_four_le_pow s hs
    have h' : ((s : Int) + 4) ≤ (8 : Int) ^ s := by exact_mod_cast h
    have h0 : (0 : Int) ≤ (s : Int) + 4 := by positivity
    exact pow_le_pow_left₀ h0 h' 2
  have h3 : ((8 : Int) ^ s) ^ 2 = 2 ^ (6 * s) := by
    rw [← pow_mul, show (8 : Int) = 2 ^ 3 by norm_num, ← pow_mul]
    congr 1
    ring
  have h4 : (2 : Int) ^ (6 * s) ≤ 2 ^ (W - 2) := pow_le_pow_right₀ (by norm_num) (by omega)
  calc ((s : Int) - (4 : Nat)) ^ 2 ≤ ((s : Int) + 4) ^ 2 := h1
    _ ≤ ((8 : Int) ^ s) ^ 2 := h2
    _ = 2 ^ (6 * s) := h3
    _ ≤ 2 ^ (W - 2) := h4

theorem int_size_is_checked (P : Platform) (h1 : 1 ≤ P.sizeof_int)
    (hlt : P.sizeof_int < 2 ^ P.size_t_bits) (hne : P.sizeof_int ≠ 4) :
    sizeAssertsPass P = false := by
  have key : __cgo_size_assert P.size_t_bits (intBits P) P.sizeof_int 4 = false := by
    by_cases hWI : P.size_t_bits < intBits P
    · exact size_assert_int_ne _ _ _ _ hWI hlt hne
    · unfold __cgo_size_assert
      rw [if_neg hWI]
      unfold intBits at hWI
      have hW : 8 * P.sizeof_int ≤ P.size_t_bits := by omega
      have hs := smallDiff_int P.size_t_bits P.sizeof_int h1 hW
      have h2 := (asSigned_count_ne P.size_t_bits (by omega) P.sizeof_int 4 hne hs).2
      unfold arrayCountValid
      simp only [decide_eq_false_iff_not, not_le]
      exact h2
  unfold sizeAssertsPass
  simp [key]

theorem size_assert_self (W I : Nat) (hW : 2 ≤ W) (n : Nat) (hn : n < 2 ^ W)
    (hI : (n : Int) < 2 ^ (I - 1)) : __cgo_size_assert W I n n = true := by
  unfold __cgo_size_assert
  split
  · rename_i hWI
    have hx : wrapU W (n : Int) = n := by
      unfold wrapU
      exact Int.emod_eq_of_lt (by omega) (by exact_mod_cast hn)
    have hp : (2 : Int) ≤ 2 ^ (I - 1) := by
      have : (2 : Int) ^ 1 ≤ 2 ^ (I - 1) := pow_le_pow_right₀ (by norm_num) (by omega)
      simpa using this
    have hq : (2 : Int) ≤ 2 ^ (W - 1) := by
      have : (2 : Int) ^ 1 ≤ 2 ^ (W - 1) := pow_le_pow_right₀ (by norm_num) (by omega)
      simpa using this
    have hn0 : (0 : Int) ≤ n := Int.natCast_nonneg n
    rw [hx]
    unfold __cgo_compile_assert_eq_int inInt
    simp only [sub_self, mul_zero, zero_mul, zero_add]
    have e : (decide (-(2 : Int) ^ (I - 1) ≤ (n : Int) ∧ (n : Int) < 2 ^ (I - 1)) &&
        decide (-(2 : Int) ^ (I - 1) ≤ (n : Int) ∧ (n : Int) < 2 ^ (I - 1)) &&
        decide (-(2 : Int) ^ (I - 1) ≤ 0 ∧ (0 : Int) < 2 ^ (I - 1)) &&
        decide (-(2 : Int) ^ (I - 1) ≤ 0 ∧ (0 : Int) < 2 ^ (I - 1)) &&
        decide (-(2 : Int) ^ (I - 1) ≤ 0 ∧ (0 : Int) < 2 ^ (I - 1)) &&
        decide (-(2 : Int) ^ (I - 1) ≤ 1 ∧ (1 : Int) < 2 ^ (I - 1))) = true := by
      simp only [Bool.and_eq_true, decide_eq_true_eq]
      refine ⟨⟨⟨⟨⟨?_, ?_⟩, ?_⟩, ?_⟩, ?_⟩, ?_⟩ <;> constructor <;> omega
    rw [if_pos e]
    simp only [intCountValid, decide_eq_true_eq]
    constructor <;> omega
  · simp [arrayCountValid, asSigned_count_eq W hW]

theorem sizeAssertsPass_expected (P : Platform) (hW : 4 ≤ P.size_t_bits)
    (hP : expectedSizes P) : sizeAssertsPass P = true := by
  obtain ⟨h1, h2, h3, h4, h5, h6⟩ := hP
  have h16 : (16 : Nat) ≤ 2 ^ P.size_t_bits := by
    calc (16 : Nat) = 2 ^ 4 := by norm_num
      _ ≤ 2 ^ P.size_t_bits := Nat.pow_le_pow_right (by norm_num) hW
  have hI : intBits P = 32 := by unfold intBits; omega
  unfold sizeAssertsPass
  rw [h1, h2, h3, h4, h5, h6, hI]
  simp only [Bool.and_eq_true]
  refine ⟨⟨⟨⟨⟨?_, ?_⟩, ?_⟩, ?_⟩, ?_⟩, ?_⟩ <;>
    exact size_assert_self _ _ (by omega) _ (by omega) (by norm_num)

/-! ## The claims on the build-time part -/

theorem offset_r_eq : offset_r = 0 := rfl

theorem shim_eq (W : Nat) (tos : Nat → Nat) (v : Nat) (w : World) :
    _cgo_5b040d13e328_Cfunc_getint W tos v w
      = assign_r (ptrAdd W v (ptrDiff W (tos (w.tosCalls + 1)) (tos w.tosCalls))) 3
          (beforeStore tos w) := by
  simp [_cgo_5b040d13e328_Cfunc_getint, _cgo_topofstack, getint, printf, beforeStore]

theorem shim_some (W : Nat) (tos : Nat → Nat) (v : Nat) (w : World)
    (h : intMapped w.mem (target W tos v w.tosCalls) = true) :
    _cgo_5b040d13e328_Cfunc_getint W tos v w = some (afterShim W tos v w) := by
  rw [shim_eq]
  unfold target at h
  simp [assign_r, storeInt, beforeStore, afterShim, target, h]

theorem shim_none (W : Nat) (tos : Nat → Nat) (v : Nat) (w : World)
    (h : intMapped w.mem (target W tos v w.tosCalls) = false) :
    _cgo_5b040d13e328_Cfunc_getint W tos v w = none := by
  rw [shim_eq]
  unfold target at h
  simp [assign_r, storeInt, beforeStore, h]

theorem asSigned_modEq (W : Nat) (v : Int) : asSigned W v ≡ v [ZMOD 2 ^ W] := by
  unfold asSigned
  split
  · exact Int.ModEq.refl v
  · have h : (v - 2 ^ W) % 2 ^ W = v % 2 ^ W := by
      rw [Int.sub_emod, Int.emod_self, sub_zero, Int.emod_emod]
    exact h

theorem ptrAdd_ptrDiff (W : Nat) (p b a : Nat) :
    ptrAdd W p (ptrDiff W b a) = (((p : Int) + ((b : Int) - a)) % 2 ^ W).toNat := by
  unfold ptrAdd ptrDiff wrapU
  have h : (p : Int) + asSigned W (((b : Int) - a) % 2 ^ W) ≡ (p : Int) + ((b : Int) - a)
      [ZMOD 2 ^ W] :=
    (Int.ModEq.refl _).add ((asSigned_modEq W _).trans (Int.mod_modEq _ _))
  rw [h]

theorem ptrAdd_ptrDiff_self (W : Nat) (p a : Nat) (hp : p < 2 ^ W) :
    ptrAdd W p (ptrDiff W a a) = p := by
  rw [ptrAdd_ptrDiff]
  have hp' : (p : Int) < 2 ^ W := by exact_mod_cast hp
  rw [sub_self, add_zero, Int.emod_eq_of_lt (by omega) hp']
  simp

theorem target_noreloc (W : Nat) (tos : Nat → Nat) (p c : Nat) (hp : p < 2 ^ W)
    (h : tos (c + 1) = tos c) : target W tos p c = p + offset_r := by
  unfold target
  rw [h, ptrAdd_ptrDiff_self W p _ hp]

theorem intMapped_writeInt (m : Mem) (a : Nat) (v : Int) (x : Nat) :
    intMapped (writeInt m a v) x = intMapped m x := rfl

theorem writeInt_bytes_outside (m : Mem) (a : Nat) (v : Int) (x : Nat)
    (h : ¬ (a ≤ x ∧ x < a + 4)) : (writeInt m a v).bytes x = m.bytes x := by
  unfold writeInt
  simp only [sizeofT]
  rw [if_neg h]

theorem writeInt_bytes_inside (m : Mem) (a : Nat) (i : Nat) (hi : i < 4) :
    (writeInt m a 3).bytes (a + i) = if i = 0 then 3 else 0 := by
  unfold writeInt
  simp only [sizeofT]
  rw [if_pos (by omega)]
  have : a + i - a = i := by omega
  rw [this]
  interval_cases i <;> simp [byteOf]

theorem loadInt_writeInt (m : Mem) (a : Nat) (h : intMapped m a = true) :
    loadInt (writeInt m a 3) a = some 3 := by
  unfold loadInt
  rw [intMapped_writeInt, if_pos h]
  have h0 := writeInt_bytes_inside m a 0 (by omega)
  have h1 := writeInt_bytes_inside m a 1 (by omega)
  have h2 := writeInt_bytes_inside m a 2 (by omega)
  have h3 := writeInt_bytes_inside m a 3 (by omega)
  simp only [add_zero] at h0
  rw [h0, h1, h2, h3]
  simp [asSigned]

theorem intMapped_of_loadInt (m : Mem) (a : Nat) (v : Int) (h : loadInt m a = some v) :
    intMapped m a = true := by
  unfold loadInt at h
  by_contra hm
  rw [if_neg hm] at h
  exact Option.noConfusion h

theorem invoke_succ_some (W : Nat) (tos : Nat → Nat) (p n : Nat) (w : World)
    (h : intMapped w.mem (target W tos p w.tosCalls) = true) :
    invoke W tos p (n + 1) w = invoke W tos p n (afterShim W tos p w) := by
  rw [invoke, shim_some W tos p w h]

theorem invoke_noreloc (W : Nat) (tos : Nat → Nat) (p : Nat) (hp : p < 2 ^ W) :
    ∀ (n : Nat) (w : World), intMapped w.mem (p + offset_r) = true →
      (∀ k, k < n + 1 → tos (w.tosCalls + 2 * k + 1) = tos (w.tosCalls + 2 * k)) →
      ∃ w1, invoke W tos p (n + 1) w = some w1 ∧ read_r w1.mem p = some 3 := by
  intro n
  induction n with
  | zero =>
    intro w hm hk
    have h0 : tos (w.tosCalls + 1) = tos w.tosCalls := by simpa using hk 0 (by omega)
    have ht := target_noreloc W tos p w.tosCalls hp h0
    refine ⟨afterShim W tos p w, ?_, ?_⟩
    · rw [invoke_succ_some W tos p 0 w (by rw [ht]; exact hm)]
      rfl
    · unfold read_r afterShim
      simp only [ht]
      exact loadInt_writeInt w.mem (p + offset_r) hm
  | succ n ih =>
    intro w hm hk
    have h0 : tos (w.tosCalls + 1) = tos w.tosCalls := by simpa using hk 0 (by omega)
    have ht := target_noreloc W tos p w.tosCalls hp h0
    rw [invoke_succ_some W tos p (n + 1) w (by rw [ht]; exact hm)]
    apply ih (afterShim W tos p w)
    · exact hm
    · intro k hlt
      have := hk (k + 1) (by omega)
      have e1 : (afterShim W tos p w).tosCalls + 2 * k + 1 = w.tosCalls + 2 * (k + 1) + 1 := by
        simp only [afterShim]; omega
      have e2 : (afterShim W tos p w).tosCalls + 2 * k = w.tosCalls + 2 * (k + 1) := by
        simp only [afterShim]; omega
      rw [e1, e2]
      exact this

theorem invoke_stdout (W : Nat) (tos : Nat → Nat) (p : Nat) :
    ∀ (n : Nat) (w : World),
      (∀ k, k < n → intMapped w.mem (target W tos p (w.tosCalls + 2 * k)) = true) →
      ∃ w1, invoke W tos p n w = some w1 ∧
        w1.stdout = w.stdout ++ (List.replicate n hello).flatten := by
  intro n
  induction n with
  | zero =>
    intro w _
    exact ⟨w, rfl, by simp⟩
  | succ n ih =>
    intro w hk
    have h0 : intMapped w.mem (target W tos p w.tosCalls) = true := by
      simpa using hk 0 (by omega)
    rw [invoke_succ_some W tos p n w h0]
    obtain ⟨w1, hw1, hout⟩ := ih (afterShim W tos p w) (by
      intro k hlt
      have := hk (k + 1) (by omega)
      have e : (afterShim W tos p w).tosCalls + 2 * k = w.tosCalls + 2 * (k + 1) := by
        simp only [afterShim]; omega
      rw [e]
      exact this)
    refine ⟨w1, hw1, ?_⟩
    rw [hout]
    simp [afterShim, List.replicate_succ, List.flatten_cons, List.append_assoc]

theorem target_eq (W : Nat) (tos : Nat → Nat) (p c : Nat) :
    target W tos p c = relocated W p (tos c) (tos (c + 1)) + offset_r := by
  unfold target relocated
  rw [ptrAdd_ptrDiff]

theorem shimDirect_eq (p : Nat) (w : World) :
    shimDirect p w = assign_r p 3
      { w with stdout := w.stdout ++ hello,
               trace := w.trace ++ [Event.getint_enter, Event.printf hello,
                 Event.getint_return 3] } := by
  simp [shimDirect, getint, printf]

theorem writeInt_congr (m1 m2 : Mem) (a : Nat) (v : Int) (hmap : m2.mapped = m1.mapped)
    (hb : ∀ x, ¬ (a ≤ x ∧ x < a + 4) → m2.bytes x = m1.bytes x) :
    writeInt m1 a v = writeInt m2 a v := by
  apply Mem.ext
  · exact hmap.symm
  · funext x
    unfold writeInt
    simp only [sizeofT]
    by_cases h : a ≤ x ∧ x < a + 4
    · rw [if_pos h, if_pos h]
    · rw [if_neg h, if_neg h, hb x h]

theorem example_bytes7 : ∀ x,
    ¬ (relocated 64 100 (fixedStack exampleWorld.tosCalls)
          (fixedStack (exampleWorld.tosCalls + 1)) + offset_r ≤ x ∧
        x < relocated 64 100 (fixedStack exampleWorld.tosCalls)
          (fixedStack (exampleWorld.tosCalls + 1)) + offset_r + 4) →
      exampleMem7.bytes x = exampleWorld.mem.bytes x := by
  intro x hx
  have h100 : relocated 64 100 (fixedStack exampleWorld.tosCalls)
      (fixedStack (exampleWorld.tosCalls + 1)) + offset_r = 100 := rfl
  rw [h100] at hx
  show (if 100 ≤ x ∧ x < 104 then 7 else 0) = 0
  rw [if_neg (by omega)]

/-! ## The claims on the run-time part -/

/-- C1: for every `n ≥ 1` and every argument block at a `W`-bit address `p`
whose result field starts at 0, when the stack is not relocated during any of
the calls (the two markers of each invocation are equal), `n` invocations of
the shim in a row complete and leave 3, the value `getint` returns, in the
result field. -/
theorem C1_round_trip (W : Nat) (tos : Nat → Nat) (p : Nat) (w : World) (n : Nat)
    (hn : 1 ≤ n) (hp : p < 2 ^ W) (h0 : read_r w.mem p = some 0)
    (hfix : ∀ k, k < n → tos (w.tosCalls + 2 * k + 1) = tos (w.tosCalls + 2 * k)) :
    ∃ w1, invoke W tos p n w = some w1 ∧ read_r w1.mem p = some 3 := by
  obtain ⟨m, rfl⟩ : ∃ m, n = m + 1 := ⟨n - 1, by omega⟩
  exact invoke_noreloc W tos p hp m w (intMapped_of_loadInt _ _ _ h0) hfix

/-- C1 for three invocations on the block at address 100 of `exampleWorld`. -/
theorem C1_round_trip_witness :
    (1 ≤ 3 ∧ 100 < 2 ^ 64 ∧ read_r exampleWorld.mem 100 = some 0 ∧
      ∀ k, k < 3 → fixedStack (exampleWorld.tosCalls + 2 * k + 1)
        = fixedStack (exampleWorld.tosCalls + 2 * k)) ∧
    ∃ w1, invoke 64 fixedStack 100 3 exampleWorld = some w1 ∧ read_r w1.mem 100 = some 3 :=
  ⟨⟨by decide, by norm_num, by decide, fun _ _ => rfl⟩,
    C1_round_trip 64 fixedStack 100 exampleWorld 3 (by decide) (by norm_num) (by decide)
      (fun _ _ => rfl)⟩

/-- C2: for every `N ≥ 0` and every prior content of standard output, `N`
invocations of the shim in a row, each with its argument block mapped at the
address it has after the call, complete and leave on standard output the
prior content followed by `N` copies of `"hello\n"`. -/
theorem C2_output (W : Nat) (tos : Nat → Nat) (p : Nat) (w : World) (N : Nat)
    (hv : ∀ k, k < N → blockValid w.mem
      (relocated W p (tos (w.tosCalls + 2 * k)) (tos (w.tosCalls + 2 * k + 1))) = true) :
    ∃ w1, invoke W tos p N w = some w1 ∧
      w1.stdout = w.stdout ++ (List.replicate N hello).flatten := by
  apply invoke_stdout W tos p N w
  intro k hk
  rw [target_eq]
  exact hv k hk

/-- C2 for two invocations after the output `"x"`. -/
theorem C2_output_witness :
    (∀ k, k < 2 → blockValid ({ exampleWorld with stdout := ['x'] } : World).mem
      (relocated 64 100 (fixedStack (0 + 2 * k)) (fixedStack (0 + 2 * k + 1))) = true) ∧
    ∃ w1, invoke 64 fixedStack 100 2 { exampleWorld with stdout := ['x'] } = some w1 ∧
      w1.stdout = ['x', 'h', 'e', 'l', 'l', 'o', '\n', 'h', 'e', 'l', 'l', 'o', '\n'] :=
  ⟨fun _ _ => (by decide : blockValid exampleMem (relocated 64 100 5000 5000) = true),
    C2_output 64 fixedStack 100 { exampleWorld with stdout := ['x'] } 2
      (fun _ _ => (by decide : blockValid exampleMem (relocated 64 100 5000 5000) = true))⟩

/-- C3: for every argument-block address `p` and every pair of markers
`before`, `after` that `_cgo_topofstack` returns around the call of `getint`,
the shim, when the block is mapped at `p + (after - before)`, stores 3 in the
result field of the block at that address; and when the four bytes there and
the four bytes at `p` do not overlap, the bytes at `p` are left unchanged. -/
theorem C3_relocation (W : Nat) (tos : Nat → Nat) (p : Nat) (w : World) (before after : Nat)
    (hb : tos w.tosCalls = before) (ha : tos (w.tosCalls + 1) = after)
    (hv : blockValid w.mem (relocated W p before after) = true) :
    ∃ w1, _cgo_5b040d13e328_Cfunc_getint W tos p w = some w1 ∧
      read_r w1.mem (relocated W p before after) = some 3 ∧
      (p + 4 ≤ relocated W p before after ∨ relocated W p before after + 4 ≤ p →
        ∀ i, i < 4 → w1.mem.bytes (p + i) = w.mem.bytes (p + i)) := by
  have ht : target W tos p w.tosCalls = relocated W p before after + offset_r := by
    rw [target_eq, hb, ha]
  refine ⟨afterShim W tos p w, shim_some W tos p w (by rw [ht]; exact hv), ?_, ?_⟩
  · unfold read_r afterShim
    simp only [ht]
    exact loadInt_writeInt w.mem _ hv
  · intro hdis i hi
    unfold afterShim
    simp only [ht, offset_r_eq, add_zero]
    exact writeInt_bytes_outside _ _ _ _ (by omega)

/-- C3 for a block that moves from address 116 to address 100. -/
theorem C3_relocation_witness :
    (movedStack exampleWorld.tosCalls = 5000 ∧ movedStack (exampleWorld.tosCalls + 1) = 4984 ∧
      blockValid exampleWorld.mem (relocated 64 116 5000 4984) = true) ∧
    ∃ w1, _cgo_5b040d13e328_Cfunc_getint 64 movedStack 116 exampleWorld = some w1 ∧
      read_r w1.mem (relocated 64 116 5000 4984) = some 3 ∧
      (116 + 4 ≤ relocated 64 116 5000 4984 ∨ relocated 64 116 5000 4984 + 4 ≤ 116 →
        ∀ i, i < 4 → w1.mem.bytes (116 + i) = exampleWorld.mem.bytes (116 + i)) :=
  ⟨⟨rfl, rfl, by decide⟩,
    C3_relocation 64 movedStack 116 exampleWorld 5000 4984 rfl rfl (by decide)⟩

/-- C6: the shim has no error path: for every argument block that is mapped at
the address it has after the call, the shim completes (it does not fault); it
returns nothing, so it reports no error either. -/
theorem C6_no_fault (W : Nat) (tos : Nat → Nat) (p : Nat) (w : World)
    (hv : blockValid w.mem
      (relocated W p (tos w.tosCalls) (tos (w.tosCalls + 1))) = true) :
    ∃ w1, _cgo_5b040d13e328_Cfunc_getint W tos p w = some w1 :=
  ⟨afterShim W tos p w, shim_some W tos p w (by rw [target_eq]; exact hv)⟩

/-- C6 for the block of `exampleWorld` after a move from address 116. -/
theorem C6_no_fault_witness :
    blockValid exampleWorld.mem (relocated 64 116 (movedStack exampleWorld.tosCalls)
      (movedStack (exampleWorld.tosCalls + 1))) = true ∧
    ∃ w1, _cgo_5b040d13e328_Cfunc_getint 64 movedStack 116 exampleWorld = some w1 :=
  ⟨by decide, C6_no_fault 64 movedStack 116 exampleWorld (by decide)⟩

/-- C7: the argument block is a packed record of one 4-byte `int` field at
offset 0 (total size 4, no padding), and one invocation of the shim on a block
mapped at the address `q` it has after the call changes memory in those 4
bytes only: the same addresses are mapped after the call as before it, the
bytes from `q` to `q + 3` hold the value 3, and every other byte of memory is
the same after the call as before it. -/
theorem C7_frame (W : Nat) (tos : Nat → Nat) (p : Nat) (w : World)
    (hv : blockValid w.mem (relocated W p (tos w.tosCalls) (tos (w.tosCalls + 1))) = true) :
    (argFields = [CType.int] ∧ sizeofT CType.int = 4 ∧ packedOffsets argFields 0 = [0] ∧
      packedSize argFields = 4) ∧
    ∃ w1, _cgo_5b040d13e328_Cfunc_getint W tos p w = some w1 ∧
      w1.mem.mapped = w.mem.mapped ∧
      (∀ i, i < packedSize argFields →
        w1.mem.bytes (relocated W p (tos w.tosCalls) (tos (w.tosCalls + 1)) + i) = byteOf 3 i) ∧
      (∀ x, ¬ (relocated W p (tos w.tosCalls) (tos (w.tosCalls + 1)) ≤ x ∧
          x < relocated W p (tos w.tosCalls) (tos (w.tosCalls + 1)) + packedSize argFields) →
        w1.mem.bytes x = w.mem.bytes x) := by
  have ht : target W tos p w.tosCalls
      = relocated W p (tos w.tosCalls) (tos (w.tosCalls + 1)) := by
    rw [target_eq, offset_r_eq, add_zero]
  have hs : packedSize argFields = 4 := rfl
  refine ⟨⟨rfl, rfl, rfl, rfl⟩, afterShim W tos p w,
    shim_some W tos p w (by rw [target_eq]; exact hv), rfl, ?_, ?_⟩
  · intro i hi
    rw [hs] at hi
    unfold afterShim
    simp only [ht]
    rw [writeInt_bytes_inside _ _ _ hi]
    interval_cases i <;> simp [byteOf]
  · intro x hx
    rw [hs] at hx
    unfold afterShim
    simp only [ht]
    exact writeInt_bytes_outside _ _ _ _ hx

/-- C7 for the block of `exampleWorld` at address 100 and a stack that stays. -/
theorem C7_frame_witness :
    blockValid exampleWorld.mem (relocated 64 100 (fixedStack exampleWorld.tosCalls)
      (fixedStack (exampleWorld.tosCalls + 1))) = true ∧
    ∃ w1, _cgo_5b040d13e328_Cfunc_getint 64 fixedStack 100 exampleWorld = some w1 ∧
      w1.mem.mapped = exampleWorld.mem.mapped ∧
      (∀ i, i < 4 → w1.mem.bytes (100 + i) = byteOf 3 i) ∧
      (∀ x, ¬ (100 ≤ x ∧ x < 100 + 4) → w1.mem.bytes x = exampleWorld.mem.bytes x) :=
  ⟨by decide, (C7_frame 64 fixedStack 100 exampleWorld (by decide)).2⟩

/-- C8: when the stack is not relocated (the two markers are equal), the shim
and the simplified shim `shimDirect`, which writes the result of `getint` to
the address it is given, end alike for every `W`-bit pointer and every state:
both fault, or both complete with the same memory and the same output. -/
theorem C8_direct (W : Nat) (tos : Nat → Nat) (p : Nat) (w : World) (hp : p < 2 ^ W)
    (hfix : tos (w.tosCalls + 1) = tos w.tosCalls) :
    (_cgo_5b040d13e328_Cfunc_getint W tos p w).map observe = (shimDirect p w).map observe := by
  rw [shim_eq, shimDirect_eq, hfix, ptrAdd_ptrDiff_self W p _ hp]
  unfold assign_r storeInt beforeStore
  by_cases h : intMapped w.mem (p + offset_r) = true
  · simp [h, observe]
  · simp [h]

/-- C8 for the block of `exampleWorld` at address 100: both shims complete. -/
theorem C8_direct_witness :
    (100 < 2 ^ 64 ∧ fixedStack (exampleWorld.tosCalls + 1) = fixedStack exampleWorld.tosCalls) ∧
    (_cgo_5b040d13e328_Cfunc_getint 64 fixedStack 100 exampleWorld).map observe
      = (shimDirect 100 exampleWorld).map observe ∧
    (shimDirect 100 exampleWorld).isSome = true :=
  ⟨⟨by norm_num, rfl⟩, C8_direct 64 fixedStack 100 exampleWorld (by norm_num) rfl, by decide⟩

/-- C9: an invocation of the shim on a block mapped at the address `q` it has
after the call is these four steps of the code, in this order and each once.
First `_cgo_topofstack` is read (`w1`): one marker read so far, nothing
written.  Then `getint` runs (`w2`): it returns 3 and the output is now the
prior output followed by `"hello\n"`, with no further marker read and memory
as at entry.  Then `_cgo_topofstack` is read a second time (`w3`): two reads,
the line already on the output, memory still as at entry, so the result field
is not yet written.  Last the store of line 41 (`w4`, the state the shim ends
in): the result field at `q` now reads 3, and the output and the number of
marker reads are as before the store. -/
theorem C9_order (W : Nat) (tos : Nat → Nat) (p : Nat) (w : World)
    (hv : blockValid w.mem (relocated W p (tos w.tosCalls) (tos (w.tosCalls + 1))) = true) :
    ∃ w1 w2 w3 w4,
      _cgo_topofstack tos w = (tos w.tosCalls, w1) ∧
      getint w1 = (3, w2) ∧
      _cgo_topofstack tos w2 = (tos (w.tosCalls + 1), w3) ∧
      assign_r (relocated W p (tos w.tosCalls) (tos (w.tosCalls + 1))) 3 w3 = some w4 ∧
      _cgo_5b040d13e328_Cfunc_getint W tos p w = some w4 ∧
      (w1.stdout = w.stdout ∧ w1.mem = w.mem ∧ w1.tosCalls = w.tosCalls + 1) ∧
      (w2.stdout = w.stdout ++ ['h', 'e', 'l', 'l', 'o', '\n'] ∧ w2.mem = w.mem ∧
        w2.tosCalls = w.tosCalls + 1) ∧
      (w3.stdout = w.stdout ++ ['h', 'e', 'l', 'l', 'o', '\n'] ∧ w3.mem = w.mem ∧
        w3.tosCalls = w.tosCalls + 2) ∧
      (w4.stdout = w.stdout ++ ['h', 'e', 'l', 'l', 'o', '\n'] ∧
        read_r w4.mem (relocated W p (tos w.tosCalls) (tos (w.tosCalls + 1))) = some 3 ∧
        w4.tosCalls = w.tosCalls + 2) ∧
      w4.trace = w.trace ++ [Event.topofstack (tos w.tosCalls), Event.getint_enter,
        Event.printf ['h', 'e', 'l', 'l', 'o', '\n'], Event.getint_return 3,
        Event.topofstack (tos (w.tosCalls + 1)),
        Event.store_r (relocated W p (tos w.tosCalls) (tos (w.tosCalls + 1)) + offset_r) 3] := by
  have ht := target_eq W tos p w.tosCalls
  have hm : intMapped w.mem (target W tos p w.tosCalls) = true := by rw [ht]; exact hv
  have hs := shim_some W tos p w hm
  refine ⟨(_cgo_topofstack tos w).2, (getint (_cgo_topofstack tos w).2).2,
    (_cgo_topofstack tos (getint (_cgo_topofstack tos w).2).2).2, afterShim W tos p w,
    rfl, rfl, rfl, ?_, hs, ⟨rfl, rfl, rfl⟩, ⟨rfl, rfl, rfl⟩, ⟨rfl, rfl, rfl⟩, ⟨rfl, ?_, rfl⟩, ?_⟩
  · rw [← hs, shim_eq, ptrAdd_ptrDiff]
    simp [_cgo_topofstack, getint, printf, beforeStore, relocated]
  · unfold read_r afterShim
    simp only [ht]
    exact loadInt_writeInt w.mem _ hv
  · unfold afterShim
    rw [ht]
    rfl

/-- C9 for the block of `exampleWorld` after a move from address 116 to
address 100: before the store the output is already `"hello\n"` and the result
field still reads 0; after it the field reads 3. -/
theorem C9_order_witness :
    blockValid exampleWorld.mem (relocated 64 116 (movedStack exampleWorld.tosCalls)
      (movedStack (exampleWorld.tosCalls + 1))) = true ∧
    ∃ w1 w2 w3 w4,
      _cgo_topofstack movedStack exampleWorld = (5000, w1) ∧
      getint w1 = (3, w2) ∧
      _cgo_topofstack movedStack w2 = (4984, w3) ∧
      assign_r 100 3 w3 = some w4 ∧
      _cgo_5b040d13e328_Cfunc_getint 64 movedStack 116 exampleWorld = some w4 ∧
      (w1.stdout = [] ∧ w1.mem = exampleMem ∧ w1.tosCalls = 1) ∧
      (w2.stdout = ['h', 'e', 'l', 'l', 'o', '\n'] ∧ w2.mem = exampleMem ∧ w2.tosCalls = 1) ∧
      (w3.stdout = ['h', 'e', 'l', 'l', 'o', '\n'] ∧ w3.mem = exampleMem ∧ w3.tosCalls = 2) ∧
      (w4.stdout = ['h', 'e', 'l', 'l', 'o', '\n'] ∧ read_r w4.mem 100 = some 3 ∧
        w4.tosCalls = 2) ∧
      w4.trace = [Event.topofstack 5000, Event.getint_enter,
        Event.printf ['h', 'e', 'l', 'l', 'o', '\n'], Event.getint_return 3,
        Event.topofstack 4984, Event.store_r 100 3] :=
  ⟨by decide, C9_order 64 movedStack 116 exampleWorld (by decide)⟩

/-- C10: the outcome of the shim does not depend on what the result field
holds: from two states that differ only in the 4 bytes of the result field of
the block at the address `q` it has after the call (same mapping, same other
bytes, same output, same markers), one invocation has the same outcome, the
same final state with the same memory and output; the invocation completes
when the block is mapped at `q`. -/
theorem C10_result_not_read (W : Nat) (tos : Nat → Nat) (p : Nat) (w : World) (m2 : Mem)
    (hmap : m2.mapped = w.mem.mapped)
    (hbytes : ∀ x, ¬ (relocated W p (tos w.tosCalls) (tos (w.tosCalls + 1)) + offset_r ≤ x ∧
        x < relocated W p (tos w.tosCalls) (tos (w.tosCalls + 1)) + offset_r + 4) →
      m2.bytes x = w.mem.bytes x) :
    _cgo_5b040d13e328_Cfunc_getint W tos p w
        = _cgo_5b040d13e328_Cfunc_getint W tos p { w with mem := m2 } ∧
      (blockValid w.mem (relocated W p (tos w.tosCalls) (tos (w.tosCalls + 1))) = true →
        ∃ w1, _cgo_5b040d13e328_Cfunc_getint W tos p w = some w1 ∧
          _cgo_5b040d13e328_Cfunc_getint W tos p { w with mem := m2 } = some w1) := by
  have hm : ∀ a, intMapped m2 a = intMapped w.mem a := by
    intro a
    unfold intMapped
    rw [hmap]
  have hw : writeInt w.mem (target W tos p w.tosCalls) 3
      = writeInt m2 (target W tos p w.tosCalls) 3 :=
    writeInt_congr _ _ _ _ hmap (by rw [target_eq]; exact hbytes)
  have key : _cgo_5b040d13e328_Cfunc_getint W tos p w
      = _cgo_5b040d13e328_Cfunc_getint W tos p { w with mem := m2 } := by
    cases h : intMapped w.mem (target W tos p w.tosCalls)
    · rw [shim_none W tos p w h, shim_none W tos p { w with mem := m2 } (by rw [← h]; exact hm _)]
    · rw [shim_some W tos p w h, shim_some W tos p { w with mem := m2 } (by rw [← h]; exact hm _)]
      unfold afterShim
      simp only [hw]
  refine ⟨key, fun hv => ⟨afterShim W tos p w, ?_, ?_⟩⟩
  · exact shim_some W tos p w (by rw [target_eq]; exact hv)
  · rw [← key]
    exact shim_some W tos p w (by rw [target_eq]; exact hv)

/-- C10 for `exampleWorld` and the memory with 7 in the bytes of the block. -/
theorem C10_result_not_read_witness :
    (exampleMem7.mapped = exampleWorld.mem.mapped ∧
      ∀ x, ¬ (relocated 64 100 (fixedStack exampleWorld.tosCalls)
            (fixedStack (exampleWorld.tosCalls + 1)) + offset_r ≤ x ∧
          x < relocated 64 100 (fixedStack exampleWorld.tosCalls)
            (fixedStack (exampleWorld.tosCalls + 1)) + offset_r + 4) →
        exampleMem7.bytes x = exampleWorld.mem.bytes x) ∧
    ∃ w1, _cgo_5b040d13e328_Cfunc_getint 64 fixedStack 100 exampleWorld = some w1 ∧
      _cgo_5b040d13e328_Cfunc_getint 64 fixedStack 100 { exampleWorld with mem := exampleMem7 }
        = some w1 :=
  ⟨⟨rfl, example_bytes7⟩,
    (C10_result_not_read 64 fixedStack 100 exampleWorld exampleMem7 rfl example_bytes7).2
      (by decide)⟩

end Cgo
